import Mathlib

/-!
Verification of the fundamentus-scraper core (src/index.js): the markup
normalizer, the row/cell table parsing loops, the table selector callback,
the filter-button loop, and the exit-path structure of the main run.

All scanning loops of the source are regex driven; they are embedded here as
character-list scanners with explicit fuel (always instantiated with the input
length, which every loop strictly decreases), so that every definition is
executable and kernel-reducible.
-/

namespace Fundamentus

/-- JS whitespace class, the regex \s: space, tab, line feed, vertical tab,
form feed, carriage return, NBSP and the Unicode space separators that
JavaScript recognises. -/
def isWs (c : Char) : Bool :=
  c == ' ' || c == '\t' || c == '\n' || c == '\x0b' || c == '\x0c' || c == '\r' ||
  c == '\u00a0' || c == '\u1680' || (decide ('\u2000' ≤ c) && decide (c ≤ '\u200a')) ||
  c == '\u2028' || c == '\u2029' || c == '\u202f' || c == '\u205f' ||
  c == '\u3000' || c == '\ufeff'

/-- Split a character list at the first occurrence of the character >
(this is the [^>]*> part of the tag regexes): the characters strictly before
the first >, and those strictly after it. -/
def splitFirstGt : List Char → Option (List Char × List Char)
  | [] => none
  | c :: rest =>
    if c = '>' then some ([], rest)
    else
      match splitFirstGt rest with
      | none => none
      | some (b, a) => some (c :: b, a)

/-- One pass of inner.replace(/<[^>]*>/g, " "): every maximal tag span, from a
< to the first following >, becomes a single space; a < with no later > is
left in place because the regex then fails to match anywhere after it. Fuel is
instantiated with the input length, which each step strictly decreases. -/
def stripTagsFuel : Nat → List Char → List Char
  | 0, s => s
  | _ + 1, [] => []
  | fuel + 1, c :: rest =>
    if c = '<' then
      match splitFirstGt rest with
      | some (_, after) => ' ' :: stripTagsFuel fuel after
      | none => c :: rest
    else c :: stripTagsFuel fuel rest

/-- Embeds inner.replace(/<[^>]*>/g, " "). -/
def stripTags (l : List Char) : List Char := stripTagsFuel l.length l

/-- Embeds .replace(/\s+/g, " "): every maximal run of whitespace collapses to
one space. -/
def collapseWs : List Char → List Char
  | [] => []
  | [c] => if isWs c then [' '] else [c]
  | c :: d :: rest =>
    if isWs c then
      if isWs d then collapseWs (d :: rest)
      else ' ' :: collapseWs (d :: rest)
    else c :: collapseWs (d :: rest)

/-- Removes the trailing whitespace run (the right half of .trim()). -/
def trimRight : List Char → List Char
  | [] => []
  | c :: rest =>
    match trimRight rest with
    | [] => if isWs c then [] else [c]
    | r => c :: r

/-- Embeds .trim(): drop leading and trailing whitespace. -/
def trimWs (l : List Char) : List Char := trimRight (l.dropWhile isWs)

/-- The cell normaliser of parseTableHtmlToArray, line 70 of src/index.js:
inner.replace(/<[^>]*>/g, " ").replace(/\s+/g, " ").trim(). -/
def normalizeCell (l : List Char) : List Char := trimWs (collapseWs (stripTags l))

/-- String-level view of the cell normaliser. -/
def normalizeCellStr (s : String) : String := String.mk (normalizeCell s.data)

/-- Case-insensitive character comparison, the regex i flag (ASCII tags). -/
def lowEq (a b : Char) : Bool := a.toLower == b.toLower

/-- Does the list begin with the pattern, case-insensitively? -/
def begMatchCI : List Char → List Char → Bool
  | [], _ => true
  | _ :: _, [] => false
  | p :: ps, c :: cs => if lowEq p c then begMatchCI ps cs else false

/-- Split a list at the first case-insensitive occurrence of the pattern:
(before, matched original characters, after). -/
def splitFirstCI (pat : List Char) : List Char → Option (List Char × List Char × List Char)
  | [] => if pat.isEmpty then some ([], [], []) else none
  | c :: rest =>
    if begMatchCI pat (c :: rest) then
      some ([], (c :: rest).take pat.length, (c :: rest).drop pat.length)
    else
      match splitFirstCI pat rest with
      | none => none
      | some (b, m, a) => some (c :: b, m, a)

/-- Case-insensitive substring occurrence test. -/
def occursCI (pat : List Char) : List Char → Bool
  | [] => pat.isEmpty
  | c :: rest => begMatchCI pat (c :: rest) || occursCI pat rest

/-- The row regex exec loop of parseTableHtmlToArray, lines 60 to 62:
trRe = /<tr[\s\S]*?<\/tr>/gi. Each match runs from a case-insensitive <tr to
the first following </tr> (lazy body), and scanning resumes after the match;
when either delimiter is absent there is no further match. Fuel is the input
length; every match consumes at least eight characters. -/
def findRowsFuel : Nat → List Char → List (List Char)
  | 0, _ => []
  | fuel + 1, s =>
    match splitFirstCI "<tr".data s with
    | none => []
    | some (_, m1, rest1) =>
      match splitFirstCI "</tr>".data rest1 with
      | none => []
      | some (mid, m2, rest2) => (m1 ++ mid ++ m2) :: findRowsFuel fuel rest2

/-- All matches of trRe over the table html. -/
def findRows (s : List Char) : List (List Char) := findRowsFuel s.length s

/-- Completes a cell match after its <td or <th: the [^>]* attribute part runs
to the first > (failing if there is none), then the lazy body runs to the
first case-insensitive closing tag of the same kind, which is what the \1
backreference enforces. Returns the body and the rest after the match. -/
def cellTail (close : List Char) (rest : List Char) : Option (List Char × List Char) :=
  match splitFirstGt rest with
  | none => none
  | some (_, afterGt) =>
    match splitFirstCI close afterGt with
    | none => none
    | some (inner, _, rest2) => some (inner, rest2)

/-- Tries cellRe = /<(td|th)[^>]*>([\s\S]*?)<\/\1>/gi at this exact position. -/
def tryCellAt : List Char → Option (List Char × List Char)
  | c :: c1 :: c2 :: rest =>
    if c = '<' then
      if lowEq c1 't' && lowEq c2 'd' then cellTail "</td>".data rest
      else if lowEq c1 't' && lowEq c2 'h' then cellTail "</th>".data rest
      else none
    else none
  | _ => none

/-- The cell regex exec loop of parseTableHtmlToArray, lines 64 to 72, over
one row's html: on a failed position the scan advances one character, on a
match it resumes after the match. Fuel is the row length. -/
def cellMatchesFuel : Nat → List Char → List (List Char)
  | 0, _ => []
  | _ + 1, [] => []
  | fuel + 1, c :: rest =>
    match tryCellAt (c :: rest) with
    | some (inner, rest2) => inner :: cellMatchesFuel fuel rest2
    | none => cellMatchesFuel fuel rest

/-- The raw bodies (capture group 2) of the successive cell matches in one
row's html. -/
def cellMatches (tr : List Char) : List (List Char) := cellMatchesFuel tr.length tr

/-- The cells array built for one row: every matched cell body is normalised
and pushed, the empty string included. -/
def rowCells (tr : List Char) : List String :=
  (cellMatches tr).map fun inner => String.mk (normalizeCell inner)

/-- Embeds the row push rule, line 73: if (cells.length > 0) rows.push(cells). -/
def collectRows : List (List Char) → List (List String)
  | [] => []
  | tr :: rest =>
    if (rowCells tr).isEmpty then collectRows rest
    else rowCells tr :: collectRows rest

/-- Embeds parseTableHtmlToArray, lines 57 to 76: a null or empty argument
gives [], otherwise the row loop over the trRe matches. -/
def parseTableHtmlToArray : Option String → List (List String)
  | none => []
  | some s => if s = "" then [] else collectRows (findRows s.data)

/-- One table candidate as seen by the page.$$eval callback of
extractTableFromPage, lines 41 to 52: its innerText (none models a read that
throws, swallowed by the per-candidate try/catch) and its outerHTML. -/
structure Candidate where
  innerText : Option String
  outerHTML : String

/-- The marker hardcoded in the callback. -/
def markerToken : String := "papel"

/-- Embeds .toLowerCase() (ASCII). -/
def lowerStr (s : String) : String := String.mk (s.data.map Char.toLower)

/-- Case-sensitive list begins-with test. -/
def begMatch : List Char → List Char → Bool
  | [], _ => true
  | _ :: _, [] => false
  | p :: ps, c :: cs => if p = c then begMatch ps cs else false

/-- Embeds String.prototype.includes: plain substring occurrence. -/
def occursSub (pat : List Char) : List Char → Bool
  | [] => pat.isEmpty
  | c :: rest => begMatch pat (c :: rest) || occursSub pat rest

/-- Embeds the per-candidate test t.innerText &&
t.innerText.toLowerCase().includes("papel"): a failed innerText read and the
empty string (falsy) are non-matches. -/
def textMatches (t : Candidate) : Bool :=
  match t.innerText with
  | none => false
  | some s => if s = "" then false else occursSub markerToken.data (lowerStr s).data

/-- The for loop of the callback: return the outerHTML of the first matching
candidate. -/
def selectLoop : List Candidate → Option String
  | [] => none
  | t :: ts => if textMatches t then some t.outerHTML else selectLoop ts

/-- Embeds the whole $$eval callback of extractTableFromPage: first matching
candidate, else the first candidate, else null. -/
def extractTableFromPage (tables : List Candidate) : Option String :=
  match selectLoop tables with
  | some h => some h
  | none =>
    match tables with
    | [] => none
    | t :: _ => some t.outerHTML

/-- Outcome of one label in the filter-button loop, lines 126 to 136. -/
inductive ControlOutcome where
  | noControl
  | queryThrows
  | foundClickOk
  | foundClickFails
deriving DecidableEq

/-- What one run of the button loop did. -/
structure LoopTrace where
  clicksSucceeded : Nat
  clicksAttempted : Nat
  labelsExamined : Nat
deriving DecidableEq

/-- The ordered label list of line 126. -/
def buttonTexts : List String := ["Filtrar", "Gerar", "Buscar", "Pesquisar", "Aplicar filtros"]

/-- Embeds the for loop over buttonTexts: a label whose page.$ query returns
null, or throws (caught), is skipped; a found button gets one click attempt
(its error swallowed by .catch) and the loop breaks. -/
def runButtons : List ControlOutcome → LoopTrace
  | [] => ⟨0, 0, 0⟩
  | o :: rest =>
    match o with
    | .noControl =>
      let t := runButtons rest
      ⟨t.clicksSucceeded, t.clicksAttempted, t.labelsExamined + 1⟩
    | .queryThrows =>
      let t := runButtons rest
      ⟨t.clicksSucceeded, t.clicksAttempted, t.labelsExamined + 1⟩
    | .foundClickOk => ⟨1, 1, 1⟩
    | .foundClickFails => ⟨0, 1, 1⟩

/-- External outcomes one run of the main IIFE can encounter. -/
structure RunEnv where
  gotoThrows : Bool
  extractThrows : Bool
  extractResult : Option String
  writeThrows : Bool

/-- Exit code of the run and whether browser.close() was attempted before the
process exited. -/
structure RunResult where
  exitCode : Nat
  closeAttempted : Bool
deriving DecidableEq

/-- Embeds the exit-path structure of the main IIFE, lines 109 to 167: a
thrown error reaches the catch, which attempts browser.close() and exits 4;
a null table html logs diagnostics and calls process.exit(2) with no close; a
parse with zero rows calls process.exit(3) with no close; the success path
closes then exits 0. -/
def mainRun (env : RunEnv) : RunResult :=
  if env.gotoThrows then ⟨4, true⟩
  else if env.extractThrows then ⟨4, true⟩
  else
    match env.extractResult with
    | none => ⟨2, false⟩
    | some h =>
      if (parseTableHtmlToArray (some h)).isEmpty then ⟨3, false⟩
      else if env.writeThrows then ⟨4, true⟩
      else ⟨0, true⟩

/-- Modelled from the claim wording of C2: delete every tag-delimited
substring, from a < to the next >, inclusive, with no replacement text. The
source instead replaces each such span with a space. -/
def deleteTagsFuel : Nat → List Char → List Char
  | 0, s => s
  | _ + 1, [] => []
  | fuel + 1, c :: rest =>
    if c = '<' then
      match splitFirstGt rest with
      | some (_, after) => deleteTagsFuel fuel after
      | none => c :: rest
    else c :: deleteTagsFuel fuel rest

/-- Modelled from the claim wording of C2: the deletion variant in full. -/
def deleteTags (l : List Char) : List Char := deleteTagsFuel l.length l

/-- Modelled from the claim wording of C2: delete tag spans, collapse
whitespace runs, trim. -/
def specDeleteNormalize (s : String) : String :=
  String.mk (trimWs (collapseWs (deleteTags s.data)))

/-- Spec-side view of collapse-and-trim: the maximal whitespace-separated
tokens of a list, in order. -/
def wsTokens : List Char → List (List Char)
  | [] => []
  | [c] => if isWs c then [] else [[c]]
  | c :: d :: rest =>
    if isWs c then wsTokens (d :: rest)
    else if isWs d then [c] :: wsTokens (d :: rest)
    else
      match wsTokens (d :: rest) with
      | [] => [[c]]
      | t :: ts => (c :: t) :: ts

/-- Spec-side view of collapse-and-trim: join tokens with single spaces. -/
def joinSpace : List (List Char) → List Char
  | [] => []
  | [t] => t
  | t :: u :: ts => t ++ ' ' :: joinSpace (u :: ts)

/-- No two adjacent characters are both whitespace. -/
def noDoubleWs : List Char → Bool
  | [] => true
  | [_] => true
  | a :: b :: rest => !(isWs a && isWs b) && noDoubleWs (b :: rest)

/-- Does the list contain the character >? -/
def hasGt : List Char → Bool
  | [] => false
  | c :: rest => c = '>' || hasGt rest

/-- Every < in the list has no > anywhere after it (so no tag-shaped span is
left). -/
def ltGtFree : List Char → Bool
  | [] => true
  | c :: rest => (if c = '<' then !hasGt rest else true) && ltGtFree rest

/-! ## Selector lemmas -/

/-- A candidate whose text cannot be read, or fails the marker test, is a
non-match for textMatches. -/
theorem textMatches_false (u : Candidate)
    (h : ∀ su, u.innerText = some su →
      occursSub markerToken.data (lowerStr su).data = false) :
    textMatches u = false := by
  cases hsu : u.innerText with
  | none => simp [textMatches, hsu]
  | some su =>
    have hocc := h su hsu
    simp [textMatches, hsu, hocc]

/-- The callback loop returns the first matching candidate, skipping every
earlier non-matching one. -/
theorem selectLoop_append (l1 l2 : List Candidate) (t : Candidate)
    (h1 : ∀ u ∈ l1, textMatches u = false) (h2 : textMatches t = true) :
    selectLoop (l1 ++ t :: l2) = some t.outerHTML := by
  induction l1 with
  | nil => simp [selectLoop, h2]
  | cons u l1 ih =>
    have hu : textMatches u = false := h1 u (by simp)
    have ih2 := ih fun v hv => h1 v (by simp [hv])
    simp [selectLoop, hu, ih2]

/-- When no candidate matches, the loop returns none. -/
theorem selectLoop_none (tables : List Candidate)
    (h : ∀ u ∈ tables, textMatches u = false) :
    selectLoop tables = none := by
  induction tables with
  | nil => rfl
  | cons u ts ih =>
    have hu : textMatches u = false := h u (by simp)
    have ih2 := ih fun v hv => h v (by simp [hv])
    simp [selectLoop, hu, ih2]

/-! ## Claim theorems, first batch -/

/-- C4: for every non-empty candidate set in which at least one candidate's
visible text contains the marker token case-insensitively, the selector
returns the outer markup of the first such candidate in document order,
short-circuiting; the witness below instantiates the spec example where the
second candidate, not the first, is returned. -/
theorem C4_first_matching_candidate (l1 l2 : List Candidate) (t : Candidate) (s : String)
    (h1 : ∀ u ∈ l1, ∀ su, u.innerText = some su →
      occursSub markerToken.data (lowerStr su).data = false)
    (h2 : t.innerText = some s)
    (h3 : occursSub markerToken.data (lowerStr s).data = true) :
    extractTableFromPage (l1 ++ t :: l2) = some t.outerHTML := by
  have hs : s ≠ "" := by
    intro he
    rw [he] at h3
    exact absurd h3 (by decide)
  have ht : textMatches t = true := by
    simp [textMatches, h2, hs, h3]
  have hsel := selectLoop_append l1 l2 t (fun u hu => textMatches_false u (h1 u hu)) ht
  simp [extractTableFromPage, hsel]

/-- C4 witness: the spec example, candidates Foo bar and Papel coisa with
marker papel, returns the markup of the second candidate. -/
theorem C4_first_matching_candidate_witness :
    extractTableFromPage [⟨some "Foo bar", "X"⟩, ⟨some "Papel coisa", "Y"⟩] = some "Y" :=
  C4_first_matching_candidate [⟨some "Foo bar", "X"⟩] [] ⟨some "Papel coisa", "Y"⟩
    "Papel coisa"
    (by
      intro u hu su hsu
      rw [List.mem_singleton] at hu
      subst hu
      injection hsu with hsu2
      subst hsu2
      decide)
    rfl (by decide)

/-- C5: table selection is total and never throws; when no candidate's visible
text contains the marker (a failed per-candidate text read counting as a
non-match that does not abort the iteration), the selector returns the first
candidate's outer markup, and on the empty candidate set it returns the
absence value none. -/
theorem C5_fallback_total (tables : List Candidate)
    (h : ∀ u ∈ tables, ∀ su, u.innerText = some su →
      occursSub markerToken.data (lowerStr su).data = false) :
    extractTableFromPage tables = tables.head?.map fun t => t.outerHTML := by
  have hsel := selectLoop_none tables (fun u hu => textMatches_false u (h u hu))
  cases tables with
  | nil => rfl
  | cons t ts => simp [extractTableFromPage, hsel]

/-- C5 witness: a candidate set whose first element's text read fails and
whose second does not contain the marker falls back to the first candidate's
markup. -/
theorem C5_fallback_total_witness :
    extractTableFromPage [⟨none, "H1"⟩, ⟨some "Foo", "H2"⟩] = some "H1" := by
  have h := C5_fallback_total [⟨none, "H1"⟩, ⟨some "Foo", "H2"⟩]
    (by
      intro u hu su hsu
      rcases List.mem_cons.mp hu with rfl | hu2
      · cases hsu
      · rcases List.mem_cons.mp hu2 with rfl | hu3
        · injection hsu with hsu2
          subst hsu2
          decide
        · simp at hu3)
  simpa using h

/-- C3: the claim asks that release of the browser be attempted on every exit
path; the code instead reaches process.exit(2) on the no-table path and
process.exit(3) on the zero-rows path without calling browser.close(), as
this evaluation of the run model shows. -/
theorem C3_exit_paths_skip_close :
    mainRun ⟨false, false, none, false⟩ = ⟨2, false⟩ ∧
    mainRun ⟨false, false, some "<p>sem linhas</p>", false⟩ = ⟨3, false⟩ := by decide

/-- C9: the button labels are tried in order; every earlier label with no
matching control (a null query result or a thrown query, both swallowed) is
passed over, the first label whose control is found and successfully clicked
ends the loop at once, and no run ever attempts or completes more than one
click. -/
theorem C9_button_loop (pre post : List ControlOutcome)
    (hpre : ∀ x ∈ pre, x = ControlOutcome.noControl ∨ x = ControlOutcome.queryThrows) :
    runButtons (pre ++ ControlOutcome.foundClickOk :: post) = ⟨1, 1, pre.length + 1⟩ ∧
    ∀ outs : List ControlOutcome, (runButtons outs).clicksSucceeded ≤ 1 ∧
      (runButtons outs).clicksAttempted ≤ 1 := by
  constructor
  · induction pre with
    | nil => rfl
    | cons x pre ih =>
      have ih2 := ih fun y hy => hpre y (by simp [hy])
      rcases hpre x (by simp) with rfl | rfl <;>
        simp [runButtons, ih2]
  · intro outs
    induction outs with
    | nil => exact ⟨by decide, by decide⟩
    | cons o rest ih =>
      cases o with
      | noControl => simpa [runButtons] using ih
      | queryThrows => simpa [runButtons] using ih
      | foundClickOk => simp [runButtons]
      | foundClickFails => simp [runButtons]

/-- C9 witness: with the first label unmatched and a control available at both
the second and the third label, exactly one click happens and exactly two
labels are examined. -/
theorem C9_button_loop_witness :
    runButtons [ControlOutcome.noControl, ControlOutcome.foundClickOk,
      ControlOutcome.foundClickOk] = ⟨1, 1, 2⟩ :=
  (C9_button_loop [ControlOutcome.noControl] [ControlOutcome.foundClickOk] (by decide)).1

/-! ## Parser lemmas -/

/-- The row push rule is an order-preserving filter over the per-row cell
lists. -/
theorem collectRows_eq_filter (rs : List (List Char)) :
    collectRows rs = (rs.map rowCells).filter fun r => !r.isEmpty := by
  induction rs with
  | nil => rfl
  | cons tr rest ih =>
    cases h : (rowCells tr).isEmpty <;>
      simp [collectRows, h, ih, List.filter_cons]

/-- Normalising the cells of a row does not change whether there are any. -/
theorem rowCells_isEmpty (tr : List Char) :
    (rowCells tr).isEmpty = (cellMatches tr).isEmpty := by
  unfold rowCells
  cases cellMatches tr <;> rfl

/-- The number of kept rows equals the number of row segments with at least
one cell match. -/
theorem collectRows_length (rs : List (List Char)) :
    (collectRows rs).length =
      ((rs.filter fun tr => !(cellMatches tr).isEmpty)).length := by
  induction rs with
  | nil => rfl
  | cons tr rest ih =>
    cases hc : (cellMatches tr).isEmpty <;>
      simp [collectRows, rowCells_isEmpty, hc, ih, List.filter_cons]

/-- A pattern that does not occur in a list does not occur in its tail. -/
theorem occursCI_tail {pat : List Char} {c : Char} {l : List Char}
    (h : occursCI pat (c :: l) = false) : occursCI pat l = false := by
  have h2 := h
  unfold occursCI at h2
  exact (Bool.or_eq_false_iff.mp h2).2

/-- A pattern that does not occur in a list does not occur in any drop of
it. -/
theorem occursCI_drop (pat : List Char) :
    ∀ (n : Nat) (l : List Char), occursCI pat l = false →
      occursCI pat (l.drop n) = false := by
  intro n
  induction n with
  | zero => intro l h; exact h
  | succ n ih =>
    intro l h
    cases l with
    | nil => exact h
    | cons c rest => exact ih rest (occursCI_tail h)

/-- A successful case-insensitive split certifies an occurrence. -/
theorem splitFirstCI_occurs (q : List Char) :
    ∀ l x, splitFirstCI q l = some x → occursCI q l = true := by
  intro l
  induction l with
  | nil =>
    intro x h
    by_cases hq : q.isEmpty <;> simp [splitFirstCI, hq, occursCI] at *
  | cons c rest ih =>
    intro x h
    by_cases hb : begMatchCI q (c :: rest)
    · simp [occursCI, hb]
    · simp only [splitFirstCI, hb, if_neg, ite_false] at h
      cases hs : splitFirstCI q rest with
      | none => rw [hs] at h; cases h
      | some y => simp [occursCI, hb, ih y hs]

/-- A pattern absent from the whole list is absent from the part after any
case-insensitive split on another pattern. -/
theorem occursCI_after_split (q pat : List Char) :
    ∀ l b m a, splitFirstCI q l = some (b, m, a) → occursCI pat l = false →
      occursCI pat a = false := by
  intro l
  induction l with
  | nil =>
    intro b m a h hocc
    by_cases hq : q.isEmpty <;> simp [splitFirstCI, hq] at h
    obtain ⟨-, -, rfl⟩ := h
    exact hocc
  | cons c rest ih =>
    intro b m a h hocc
    by_cases hb : begMatchCI q (c :: rest)
    · simp only [splitFirstCI, hb, ite_true, Option.some.injEq, Prod.mk.injEq] at h
      obtain ⟨-, -, rfl⟩ := h
      exact occursCI_drop pat q.length (c :: rest) hocc
    · simp only [splitFirstCI, hb, ite_false] at h
      cases hs : splitFirstCI q rest with
      | none => rw [hs] at h; cases h
      | some y =>
        obtain ⟨b2, m2, a2⟩ := y
        rw [hs] at h
        have h2 : c :: b2 = b ∧ m2 = m ∧ a2 = a := by simpa using h
        exact h2.2.2 ▸ ih b2 m2 a2 hs (occursCI_tail hocc)

/-- A pattern absent from the whole list is absent from the part after the
first >. -/
theorem occursCI_after_gt (pat : List Char) :
    ∀ l b a, splitFirstGt l = some (b, a) → occursCI pat l = false →
      occursCI pat a = false := by
  intro l
  induction l with
  | nil => intro b a h _; cases h
  | cons c rest ih =>
    intro b a h hocc
    by_cases hc : c = '>'
    · simp only [splitFirstGt, hc, ite_true, Option.some.injEq, Prod.mk.injEq] at h
      obtain ⟨-, rfl⟩ := h
      exact occursCI_tail hocc
    · simp only [splitFirstGt, hc, ite_false] at h
      cases hs : splitFirstGt rest with
      | none => rw [hs] at h; cases h
      | some y =>
        obtain ⟨b2, a2⟩ := y
        rw [hs] at h
        have h2 : c :: b2 = b ∧ a2 = a := by simpa using h
        exact h2.2 ▸ ih b2 a2 hs (occursCI_tail hocc)

/-- A successful cell match demands a case-insensitive closing td or th tag
somewhere in the scanned text. -/
theorem tryCellAt_needs_close (l : List Char) (x : List Char × List Char)
    (h : tryCellAt l = some x)
    (hd : occursCI "</td>".data l = false)
    (hh : occursCI "</th>".data l = false) : False := by
  cases l with
  | nil => simp [tryCellAt] at h
  | cons c l1 =>
    cases l1 with
    | nil => simp [tryCellAt] at h
    | cons c1 l2 =>
      cases l2 with
      | nil => simp [tryCellAt] at h
      | cons c2 rest =>
        have hd3 : occursCI "</td>".data rest = false :=
          occursCI_tail (occursCI_tail (occursCI_tail hd))
        have hh3 : occursCI "</th>".data rest = false :=
          occursCI_tail (occursCI_tail (occursCI_tail hh))
        by_cases hc : c = '<'
        · rw [tryCellAt, if_pos hc] at h
          have hcell : ∀ close : List Char, occursCI close rest = false →
              cellTail close rest = some x → False := by
            intro close hno hct
            unfold cellTail at hct
            cases hg : splitFirstGt rest with
            | none => rw [hg] at hct; cases hct
            | some p =>
              obtain ⟨b, afterGt⟩ := p
              rw [hg] at hct
              dsimp only at hct
              cases hs : splitFirstCI close afterGt with
              | none => rw [hs] at hct; cases hct
              | some y =>
                have htrue : occursCI close afterGt = true :=
                  splitFirstCI_occurs close afterGt y hs
                have hfalse : occursCI close afterGt = false :=
                  occursCI_after_gt close rest b afterGt hg hno
                rw [htrue] at hfalse
                cases hfalse
          by_cases h1 : lowEq c1 't' && lowEq c2 'd'
          · rw [if_pos h1] at h
            exact hcell "</td>".data hd3 h
          · rw [if_neg h1] at h
            by_cases h2 : lowEq c1 't' && lowEq c2 'h'
            · rw [if_pos h2] at h
              exact hcell "</th>".data hh3 h
            · rw [if_neg h2] at h
              cases h
        · rw [tryCellAt, if_neg hc] at h
          cases h

/-- With no closing td or th tag anywhere, the cell loop finds nothing. -/
theorem cellMatchesFuel_nil (fuel : Nat) :
    ∀ tr, occursCI "</td>".data tr = false → occursCI "</th>".data tr = false →
      cellMatchesFuel fuel tr = [] := by
  induction fuel with
  | zero => intro tr _ _; rfl
  | succ fuel ih =>
    intro tr hd hh
    cases tr with
    | nil => rfl
    | cons c rest =>
      have step : cellMatchesFuel (fuel + 1) (c :: rest) =
          match tryCellAt (c :: rest) with
          | some (inner, rest2) => inner :: cellMatchesFuel fuel rest2
          | none => cellMatchesFuel fuel rest := rfl
      rw [step]
      cases ht : tryCellAt (c :: rest) with
      | some x => exact (tryCellAt_needs_close (c :: rest) x ht hd hh).elim
      | none => exact ih rest (occursCI_tail hd) (occursCI_tail hh)

/-- With no closing tr tag anywhere, the row loop finds nothing. -/
theorem findRowsFuel_nil (fuel : Nat) :
    ∀ s, occursCI "</tr>".data s = false → findRowsFuel fuel s = [] := by
  induction fuel with
  | zero => intro s _; rfl
  | succ fuel _ =>
    intro s hocc
    have step : findRowsFuel (fuel + 1) s =
        match splitFirstCI "<tr".data s with
        | none => []
        | some (_, m1, rest1) =>
          match splitFirstCI "</tr>".data rest1 with
          | none => []
          | some (mid, m2, rest2) => (m1 ++ mid ++ m2) :: findRowsFuel fuel rest2 := rfl
    rw [step]
    cases h1 : splitFirstCI "<tr".data s with
    | none => rfl
    | some y =>
      obtain ⟨b1, m1, rest1⟩ := y
      dsimp only
      have hno : occursCI "</tr>".data rest1 = false :=
        occursCI_after_split "<tr".data "</tr>".data s b1 m1 rest1 h1 hocc
      cases h2 : splitFirstCI "</tr>".data rest1 with
      | none => rfl
      | some z =>
        have := splitFirstCI_occurs "</tr>".data rest1 z h2
        rw [this] at hno
        cases hno

/-! ## Parser claim theorems -/

/-- C6: one cell is appended for every cell element matched in a row segment,
the empty string included; a row is appended exactly when its segment yielded
at least one cell; consequently every row of the parser output is non-empty,
and the empty cell example keeps its row. -/
theorem C6_cells_and_row_drop :
    (∀ tr : List Char, (rowCells tr).length = (cellMatches tr).length) ∧
    (∀ h : String, parseTableHtmlToArray (some h) =
      ((findRows h.data).map rowCells).filter fun r => !r.isEmpty) ∧
    (∀ (h : Option String) (r : List String), r ∈ parseTableHtmlToArray h → r ≠ []) ∧
    parseTableHtmlToArray (some "<tr><td></td></tr>") = [[""]] := by
  refine ⟨fun tr => by simp [rowCells], fun h => ?_, fun h r hr hre => ?_, by decide⟩
  · by_cases hs : h = ""
    · subst hs; rfl
    · simp [parseTableHtmlToArray, hs, collectRows_eq_filter]
  · subst hre
    cases h with
    | none => simp [parseTableHtmlToArray] at hr
    | some s =>
      by_cases hs : s = ""
      · subst hs
        simp [parseTableHtmlToArray] at hr
      · simp [parseTableHtmlToArray, hs, collectRows_eq_filter, List.mem_filter] at hr

/-- C6 witness: the row parsed from the empty-cell example is a member of the
output and non-empty. -/
theorem C6_cells_and_row_drop_witness : ([""] : List String) ≠ [] :=
  C6_cells_and_row_drop.2.2.1 (some "<tr><td></td></tr>") [""] (by decide)

/-- C7: the parser output is the document-order sequence of row segments, each
mapped to its document-order cell list, with only the zero-cell segments
dropped, so no reordering ever happens; in particular the two-row example of
the spec parses to exactly that array. -/
theorem C7_document_order :
    (∀ h : String, parseTableHtmlToArray (some h) =
      ((findRows h.data).map rowCells).filter fun r => !r.isEmpty) ∧
    parseTableHtmlToArray (some "<tr><td>A</td><td>B</td></tr><tr><td>C</td></tr>") =
      [["A", "B"], ["C"]] := by
  constructor
  · intro h
    by_cases hs : h = ""
    · subst hs; rfl
    · simp [parseTableHtmlToArray, hs, collectRows_eq_filter]
  · decide

/-- C8: for every table markup, the number of rows in the parser output equals
the number of row-delimited segments that contain at least one cell match. -/
theorem C8_row_count (h : String) :
    (parseTableHtmlToArray (some h)).length =
      ((findRows h.data).filter fun tr => !(cellMatches tr).isEmpty).length := by
  by_cases hs : h = ""
  · subst hs; rfl
  · simp [parseTableHtmlToArray, hs, collectRows_length]

/-- C10: a row needs an explicit closing tr tag and a cell needs an explicit
closing tag of its own kind; with no such closing tag the loops contribute
nothing, as in the two concrete examples, whose unclosed or mismatched
elements are dropped entirely. -/
theorem C10_explicit_close_tags :
    (∀ s : List Char, occursCI "</tr>".data s = false → findRows s = []) ∧
    (∀ tr : List Char, occursCI "</td>".data tr = false →
      occursCI "</th>".data tr = false → cellMatches tr = []) ∧
    parseTableHtmlToArray (some "<tr><td>A</th></tr>") = [] ∧
    parseTableHtmlToArray (some "<tr><td>C</td>") = [] := by
  exact ⟨fun s hocc => findRowsFuel_nil s.length s hocc,
    fun tr hd hh => cellMatchesFuel_nil tr.length tr hd hh,
    by decide, by decide⟩

/-- C10 witness: an unclosed row start yields no row match at all. -/
theorem C10_explicit_close_tags_witness : findRows "<tr><td>x".data = [] :=
  C10_explicit_close_tags.1 "<tr><td>x".data (by decide)

/-! ## Normalizer lemmas -/

/-- A failed split on > means the list has no >. -/
theorem splitFirstGt_none : ∀ l : List Char, splitFirstGt l = none → hasGt l = false := by
  intro l
  induction l with
  | nil => intro _; rfl
  | cons c rest ih =>
    intro h
    by_cases hc : c = '>'
    · simp [splitFirstGt, hc] at h
    · simp only [splitFirstGt, hc, ite_false] at h
      cases hs : splitFirstGt rest with
      | none => simp [hasGt, hc, ih hs]
      | some y => rw [hs] at h; cases h

/-- A successful split on > decomposes the list. -/
theorem splitFirstGt_decomp : ∀ l b a : List Char, splitFirstGt l = some (b, a) →
    l = b ++ '>' :: a := by
  intro l
  induction l with
  | nil => intro b a h; cases h
  | cons c rest ih =>
    intro b a h
    by_cases hc : c = '>'
    · simp only [splitFirstGt, hc, ite_true, Option.some.injEq, Prod.mk.injEq] at h
      obtain ⟨rfl, rfl⟩ := h
      simp [hc]
    · simp only [splitFirstGt, hc, ite_false] at h
      cases hs : splitFirstGt rest with
      | none => rw [hs] at h; cases h
      | some y =>
        obtain ⟨b2, a2⟩ := y
        rw [hs] at h
        have h2 : c :: b2 = b ∧ a2 = a := by simpa using h
        obtain ⟨rfl, rfl⟩ := h2
        simp [ih b2 a2 hs]

/-- The part after a successful split on > is strictly shorter. -/
theorem splitFirstGt_after_length (l b a : List Char) (h : splitFirstGt l = some (b, a)) :
    a.length < l.length := by
  rw [splitFirstGt_decomp l b a h]
  simp
  omega

/-- A list with no > is trivially free of tag-shaped spans. -/
theorem hasGt_ltGtFree : ∀ l : List Char, hasGt l = false → ltGtFree l = true := by
  intro l
  induction l with
  | nil => intro _; rfl
  | cons c rest ih =>
    intro h
    have h2 : (c = '>' → False) ∧ hasGt rest = false := by
      have := h
      unfold hasGt at this
      constructor
      · intro hc
        simp [hc] at this
      · exact (Bool.or_eq_false_iff.mp this).2
    simp [ltGtFree, h2.2, ih h2.2]

/-- The tag-replacement pass leaves no < with a > after it: every such pair
would have been consumed as a tag span. -/
theorem ltGtFree_strip : ∀ (fuel : Nat) (l : List Char), l.length ≤ fuel →
    ltGtFree (stripTagsFuel fuel l) = true := by
  intro fuel
  induction fuel with
  | zero =>
    intro l hl
    rw [List.length_eq_zero.mp (Nat.le_zero.mp hl)]
    rfl
  | succ fuel ih =>
    intro l hl
    cases l with
    | nil => rfl
    | cons c rest =>
      have hrest : rest.length ≤ fuel := by
        simpa using Nat.succ_le_succ_iff.mp (by simpa using hl)
      by_cases hc : c = '<'
      · have step : stripTagsFuel (fuel + 1) (c :: rest) =
            match splitFirstGt rest with
            | some (_, after) => ' ' :: stripTagsFuel fuel after
            | none => c :: rest := by
          simp [stripTagsFuel, hc]
        rw [step]
        cases hg : splitFirstGt rest with
        | some y =>
          obtain ⟨b, after⟩ := y
          have hafter : after.length ≤ fuel :=
            Nat.le_of_lt (Nat.lt_of_lt_of_le (splitFirstGt_after_length rest b after hg) hrest)
          simp [ltGtFree, ih after hafter]
        | none =>
          have hng : hasGt rest = false := splitFirstGt_none rest hg
          simp [ltGtFree, hc, hng, hasGt_ltGtFree rest hng]
      · have step : stripTagsFuel (fuel + 1) (c :: rest) = c :: stripTagsFuel fuel rest := by
          simp [stripTagsFuel, hc]
        rw [step]
        simp [ltGtFree, hc, ih rest hrest]

/-- Whitespace collapsing introduces no >. -/
theorem hasGt_collapse : ∀ l : List Char, hasGt l = false → hasGt (collapseWs l) = false := by
  intro l
  induction l with
  | nil => intro _; rfl
  | cons c rest ih =>
    intro h
    have hc : (c = '>') = False := by
      by_contra hne
      have : c = '>' := by
        rcases Classical.em (c = '>') with h2 | h2
        · exact h2
        · exact absurd (eq_false h2) hne
      simp [hasGt, this] at h
    have hrest : hasGt rest = false := by
      unfold hasGt at h
      exact (Bool.or_eq_false_iff.mp h).2
    cases rest with
    | nil =>
      by_cases hw : isWs c
      · simp [collapseWs, hw, hasGt]
      · simp [collapseWs, hw, hasGt, hc]
    | cons d r =>
      by_cases hw : isWs c
      · by_cases hw2 : isWs d
        · simpa [collapseWs, hw, hw2] using ih hrest
        · simpa [collapseWs, hw, hw2, hasGt] using ih hrest
      · simpa [collapseWs, hw, hasGt, hc] using ih hrest

/-- Being free of tag-shaped spans passes to the tail. -/
theorem ltGtFree_tail {c : Char} {l : List Char} (h : ltGtFree (c :: l) = true) :
    ltGtFree l = true := by
  unfold ltGtFree at h
  exact (Bool.and_eq_true_iff.mp h).2

/-- Whitespace collapsing preserves freedom from tag-shaped spans. -/
theorem ltGtFree_collapse : ∀ l : List Char, ltGtFree l = true →
    ltGtFree (collapseWs l) = true := by
  intro l
  induction l with
  | nil => intro _; rfl
  | cons c rest ih =>
    intro h
    have hrest := ltGtFree_tail h
    have hcarry : (if c = '<' then !hasGt rest else true) = true := by
      unfold ltGtFree at h
      exact (Bool.and_eq_true_iff.mp h).1
    cases rest with
    | nil =>
      by_cases hw : isWs c
      · simp [collapseWs, hw, ltGtFree]
      · simpa [collapseWs, hw, ltGtFree] using hcarry
    | cons d r =>
      by_cases hw : isWs c
      · by_cases hw2 : isWs d
        · simpa [collapseWs, hw, hw2] using ih hrest
        · have := ih hrest
          simp [collapseWs, hw, hw2, ltGtFree, this]
      · have hcoll := ih hrest
        have hgt : c = '<' → hasGt (collapseWs (d :: r)) = false := by
          intro hc
          rw [hc] at hcarry
          simp at hcarry
          exact hasGt_collapse (d :: r) hcarry
        by_cases hc : c = '<'
        · simp [collapseWs, hw, ltGtFree, hc, hgt hc, hcoll]
        · simp [collapseWs, hw, ltGtFree, hc, hcoll]

/-- A non-whitespace head survives whitespace collapsing as the head. -/
theorem collapseWs_cons_head (d : Char) (rest : List Char) (hd : isWs d = false) :
    ∃ Y, collapseWs (d :: rest) = d :: Y := by
  cases rest with
  | nil => exact ⟨[], by simp [collapseWs, hd]⟩
  | cons e r => exact ⟨collapseWs (e :: r), by simp [collapseWs, hd]⟩

/-- The collapsed list never has two adjacent whitespace characters. -/
theorem noDoubleWs_collapse : ∀ l : List Char, noDoubleWs (collapseWs l) = true := by
  intro l
  induction l with
  | nil => rfl
  | cons c rest ih =>
    cases rest with
    | nil => by_cases hw : isWs c <;> simp [collapseWs, hw, noDoubleWs]
    | cons d r =>
      by_cases hw : isWs c
      · by_cases hw2 : isWs d
        · simpa [collapseWs, hw, hw2] using ih
        · obtain ⟨Y, hY⟩ := collapseWs_cons_head d r (by simpa using hw2)
          rw [show collapseWs (c :: d :: r) = ' ' :: collapseWs (d :: r) by
            simp [collapseWs, hw, hw2]]
          rw [hY]
          have ih2 : noDoubleWs (d :: Y) = true := by rw [← hY]; exact ih
          simp [noDoubleWs, hw2, ih2]
      · rw [show collapseWs (c :: d :: r) = c :: collapseWs (d :: r) by
          simp [collapseWs, hw]]
        cases hX : collapseWs (d :: r) with
        | nil => rfl
        | cons x xs =>
          have ih2 : noDoubleWs (x :: xs) = true := by rw [← hX]; exact ih
          simp [noDoubleWs, hw, ih2]

/-- Absence of adjacent whitespace passes to the tail. -/
theorem noDoubleWs_tail {c : Char} {l : List Char} (h : noDoubleWs (c :: l) = true) :
    noDoubleWs l = true := by
  cases l with
  | nil => rfl
  | cons x xs =>
    unfold noDoubleWs at h
    exact (Bool.and_eq_true_iff.mp h).2

/-- Absence of adjacent whitespace survives dropWhile. -/
theorem noDoubleWs_dropWhile (p : Char → Bool) :
    ∀ l : List Char, noDoubleWs l = true → noDoubleWs (l.dropWhile p) = true := by
  intro l
  induction l with
  | nil => intro _; rfl
  | cons c rest ih =>
    intro h
    rw [List.dropWhile_cons]
    by_cases hp : p c
    · simp only [hp, ite_true]
      exact ih (noDoubleWs_tail h)
    · simp only [hp, ite_false]
      exact h

/-- Freedom from tag-shaped spans survives dropWhile. -/
theorem ltGtFree_dropWhile (p : Char → Bool) :
    ∀ l : List Char, ltGtFree l = true → ltGtFree (l.dropWhile p) = true := by
  intro l
  induction l with
  | nil => intro _; rfl
  | cons c rest ih =>
    intro h
    rw [List.dropWhile_cons]
    by_cases hp : p c
    · simp only [hp, ite_true]
      exact ih (ltGtFree_tail h)
    · simp only [hp, ite_false]
      exact h

/-- A non-empty right-trim keeps the head of the list. -/
theorem trimRight_head : ∀ (l : List Char) (x : Char) (xs : List Char),
    trimRight l = x :: xs → ∃ ys, l = x :: ys := by
  intro l
  induction l with
  | nil => intro x xs h; cases h
  | cons c rest _ =>
    intro x xs h
    have step : trimRight (c :: rest) =
        match trimRight rest with
        | [] => if isWs c then [] else [c]
        | r => c :: r := rfl
    rw [step] at h
    cases htr : trimRight rest with
    | nil =>
      rw [htr] at h
      by_cases hw : isWs c
      · simp [hw] at h
      · simp [hw] at h
        exact ⟨rest, by rw [h.1]⟩
    | cons y ys =>
      rw [htr] at h
      have h2 : c :: y :: ys = x :: xs := h
      simp only [List.cons.injEq] at h2
      exact ⟨rest, by rw [h2.1]⟩

/-- Right-trimming introduces no >. -/
theorem hasGt_trimRight : ∀ l : List Char, hasGt l = false → hasGt (trimRight l) = false := by
  intro l
  induction l with
  | nil => intro _; rfl
  | cons c rest ih =>
    intro h
    have hc : (decide (c = '>') : Bool) = false := by
      by_cases hcc : c = '>'
      · simp [hasGt, hcc] at h
      · simp [hcc]
    have hrest : hasGt rest = false := by
      unfold hasGt at h
      exact (Bool.or_eq_false_iff.mp h).2
    have step : trimRight (c :: rest) =
        match trimRight rest with
        | [] => if isWs c then [] else [c]
        | r => c :: r := rfl
    rw [step]
    cases htr : trimRight rest with
    | nil =>
      by_cases hw : isWs c
      · simp [hw, hasGt]
      · simp [hw, hasGt, hc]
    | cons y ys =>
      have ih2 : hasGt (y :: ys) = false := by rw [← htr]; exact ih hrest
      simp only [hasGt, hc, Bool.false_or]
      exact ih2

/-- Right-trimming preserves freedom from tag-shaped spans. -/
theorem ltGtFree_trimRight : ∀ l : List Char, ltGtFree l = true →
    ltGtFree (trimRight l) = true := by
  intro l
  induction l with
  | nil => intro _; rfl
  | cons c rest ih =>
    intro h
    have hrest := ltGtFree_tail h
    have hcarry : (if c = '<' then !hasGt rest else true) = true := by
      unfold ltGtFree at h
      exact (Bool.and_eq_true_iff.mp h).1
    have step : trimRight (c :: rest) =
        match trimRight rest with
        | [] => if isWs c then [] else [c]
        | r => c :: r := rfl
    rw [step]
    cases htr : trimRight rest with
    | nil =>
      by_cases hw : isWs c
      · simp [hw, ltGtFree]
      · have single : ltGtFree [c] = ((if c = '<' then !hasGt [] else true) && ltGtFree []) := rfl
        simp [hw, single, hasGt, ltGtFree]
    | cons y ys =>
      have ih2 : ltGtFree (y :: ys) = true := by rw [← htr]; exact ih hrest
      have one : ltGtFree (c :: y :: ys) =
          ((if c = '<' then !hasGt (y :: ys) else true) && ltGtFree (y :: ys)) := rfl
      by_cases hc : c = '<'
      · rw [hc] at hcarry
        simp at hcarry
        have hgt : hasGt (y :: ys) = false := by
          rw [← htr]
          exact hasGt_trimRight rest hcarry
        rw [one, hc]
        simp [hgt, ih2]
      · rw [one]
        simp [hc, ih2]

/-- Right-trimming preserves absence of adjacent whitespace. -/
theorem noDoubleWs_trimRight : ∀ l : List Char, noDoubleWs l = true →
    noDoubleWs (trimRight l) = true := by
  intro l
  induction l with
  | nil => intro _; rfl
  | cons c rest ih =>
    intro h
    have step : trimRight (c :: rest) =
        match trimRight rest with
        | [] => if isWs c then [] else [c]
        | r => c :: r := rfl
    rw [step]
    cases htr : trimRight rest with
    | nil => by_cases hw : isWs c <;> simp [hw, noDoubleWs]
    | cons y ys =>
      have ih2 : noDoubleWs (y :: ys) = true := by rw [← htr]; exact ih (noDoubleWs_tail h)
      obtain ⟨ys2, hys2⟩ := trimRight_head rest y ys htr
      have hpair : (!(isWs c && isWs y)) = true := by
        rw [hys2] at h
        have hsplit : noDoubleWs (c :: y :: ys2) =
            ((!(isWs c && isWs y)) && noDoubleWs (y :: ys2)) := rfl
        rw [hsplit, Bool.and_eq_true] at h
        exact h.1
      have one : noDoubleWs (c :: y :: ys) =
          ((!(isWs c && isWs y)) && noDoubleWs (y :: ys)) := rfl
      rw [one, Bool.and_eq_true]
      exact ⟨hpair, ih2⟩

/-! ## Collapse-and-trim versus the token view -/

/-- A leading whitespace character does not affect the token split. -/
theorem wsTokens_ws_cons (d : Char) (rest : List Char) (hd : isWs d = true) :
    wsTokens (d :: rest) = wsTokens rest := by
  cases rest with
  | nil => simp [wsTokens, hd]
  | cons e r => simp [wsTokens, hd]

/-- Leading whitespace can be dropped before token splitting. -/
theorem wsTokens_dropWhile : ∀ l : List Char, wsTokens (l.dropWhile isWs) = wsTokens l := by
  intro l
  induction l with
  | nil => rfl
  | cons c rest ih =>
    rw [List.dropWhile_cons]
    by_cases hc : isWs c
    · simp only [hc, ite_true]
      rw [ih, wsTokens_ws_cons c rest hc]
    · simp [hc]

/-- An all-whitespace list has no tokens. -/
theorem wsTokens_all_ws : ∀ l : List Char, (∀ x ∈ l, isWs x = true) → wsTokens l = [] := by
  intro l
  induction l with
  | nil => intro _; rfl
  | cons c rest ih =>
    intro h
    rw [wsTokens_ws_cons c rest (h c (by simp))]
    exact ih fun x hx => h x (by simp [hx])

/-- The token split of a list with a non-whitespace head starts with a token
led by that head. -/
theorem wsTokens_head : ∀ (r : List Char) (e : Char), isWs e = false →
    ∃ t ts, wsTokens (e :: r) = (e :: t) :: ts := by
  intro r
  induction r with
  | nil => intro e he; exact ⟨[], [], by simp [wsTokens, he]⟩
  | cons d r2 ih =>
    intro e he
    by_cases hd : isWs d
    · exact ⟨[], wsTokens (d :: r2), by simp [wsTokens, he, hd]⟩
    · obtain ⟨t, ts, hts⟩ := ih d (by simpa using hd)
      refine ⟨d :: t, ts, ?_⟩
      have one : wsTokens (e :: d :: r2) =
          match wsTokens (d :: r2) with
          | [] => [[e]]
          | u :: us => (e :: u) :: us := by
        simp [wsTokens, he, hd]
      rw [one, hts]

/-- Collapsing a whitespace-headed list gives a single space followed by the
collapse of the remainder after the whitespace run. -/
theorem collapseWs_ws_head : ∀ (rest : List Char) (d : Char), isWs d = true →
    collapseWs (d :: rest) = ' ' :: collapseWs (rest.dropWhile isWs) := by
  intro rest
  induction rest with
  | nil => intro d hd; simp [collapseWs, hd, List.dropWhile]
  | cons e r ih =>
    intro d hd
    by_cases he : isWs e
    · rw [show collapseWs (d :: e :: r) = collapseWs (e :: r) by simp [collapseWs, hd, he]]
      rw [ih e he, List.dropWhile_cons]
      simp [he]
    · rw [show collapseWs (d :: e :: r) = ' ' :: collapseWs (e :: r) by
        simp [collapseWs, hd, he]]
      rw [List.dropWhile_cons]
      simp [he]

/-- dropWhile only stops at an element failing the predicate. -/
theorem dropWhile_head_false {p : Char → Bool} : ∀ {l : List Char} {c : Char} {cs : List Char},
    l.dropWhile p = c :: cs → p c = false := by
  intro l
  induction l with
  | nil => intro c cs h; cases h
  | cons x xs ih =>
    intro c cs h
    rw [List.dropWhile_cons] at h
    by_cases hx : p x
    · rw [if_pos hx] at h
      exact ih h
    · rw [if_neg hx] at h
      obtain ⟨h1, -⟩ : x = c ∧ xs = cs := by simpa using h
      rw [← h1]
      simpa using hx

/-- Right-trimming a cons whose tail right-trims non-empty keeps the head. -/
theorem trimRight_cons (c : Char) (l : List Char) (h : trimRight l ≠ []) :
    trimRight (c :: l) = c :: trimRight l := by
  have step : trimRight (c :: l) =
      match trimRight l with
      | [] => if isWs c then [] else [c]
      | r => c :: r := rfl
  rw [step]
  cases htr : trimRight l with
  | nil => exact absurd htr h
  | cons y ys => rfl

/-- joinSpace pulls a token head out front. -/
theorem joinSpace_cons_head (c : Char) (u : List Char) (ts : List (List Char)) :
    joinSpace ((c :: u) :: ts) = c :: joinSpace (u :: ts) := by
  cases ts with
  | nil => rfl
  | cons v ts2 => rfl

/-- Collapse-then-trim equals the declarative token-join view. -/
theorem trim_collapse_eq_join : ∀ m : List Char,
    trimWs (collapseWs m) = joinSpace (wsTokens m) := by
  intro m
  induction m with
  | nil => rfl
  | cons c rest ih =>
    cases rest with
    | nil =>
      by_cases hc : isWs c
      · simp [collapseWs, hc, trimWs, List.dropWhile, wsTokens, joinSpace, trimRight]
      · simp [collapseWs, hc, trimWs, List.dropWhile, wsTokens, joinSpace, trimRight]
    | cons d r =>
      by_cases hc : isWs c
      · have e2 : wsTokens (c :: d :: r) = wsTokens (d :: r) := wsTokens_ws_cons c (d :: r) hc
        rw [e2, ← ih]
        by_cases hd : isWs d
        · rw [show collapseWs (c :: d :: r) = collapseWs (d :: r) by simp [collapseWs, hc, hd]]
        · rw [show collapseWs (c :: d :: r) = ' ' :: collapseWs (d :: r) by
            simp [collapseWs, hc, hd]]
          obtain ⟨Y, hY⟩ := collapseWs_cons_head d r (by simpa using hd)
          rw [trimWs, trimWs, hY]
          rw [show (' ' :: d :: Y).dropWhile isWs = (d :: Y).dropWhile isWs by
            rw [List.dropWhile_cons]
            simp [show isWs ' ' = true from rfl]]
      · rw [show collapseWs (c :: d :: r) = c :: collapseWs (d :: r) by simp [collapseWs, hc]]
        rw [trimWs]
        rw [show (c :: collapseWs (d :: r)).dropWhile isWs = c :: collapseWs (d :: r) by
          rw [List.dropWhile_cons]
          simp [hc]]
        by_cases hd : isWs d
        · have e2 : wsTokens (c :: d :: r) = [c] :: wsTokens (d :: r) := by
            simp [wsTokens, hc, hd]
          rw [e2]
          rw [show collapseWs (d :: r) = ' ' :: collapseWs (r.dropWhile isWs) from
            collapseWs_ws_head r d hd]
          cases hdr : r.dropWhile isWs with
          | nil =>
            have hall : ∀ x ∈ r, isWs x = true := by
              intro x hx
              exact List.dropWhile_eq_nil_iff.mp hdr x hx
            have htok : wsTokens (d :: r) = [] := by
              rw [wsTokens_ws_cons d r hd]
              exact wsTokens_all_ws r hall
            rw [htok]
            show trimRight [c, ' '] = [c]
            have t1 : trimRight [' '] = [] := rfl
            have t2 : trimRight [c, ' '] =
                match trimRight [' '] with
                | [] => if isWs c then [] else [c]
                | r => c :: r := rfl
            rw [t2, t1]
            simp [hc]
          | cons e r2 =>
            have he : isWs e = false := dropWhile_head_false hdr
            obtain ⟨Y2, hY2⟩ := collapseWs_cons_head e r2 he
            obtain ⟨t, ts, hts⟩ := wsTokens_head r2 e he
            have htok : wsTokens (d :: r) = (e :: t) :: ts := by
              rw [wsTokens_ws_cons d r hd, ← wsTokens_dropWhile r, hdr, hts]
            have hsp : isWs ' ' = true := rfl
            have hC : (' ' :: collapseWs (e :: r2)).dropWhile isWs =
                collapseWs (e :: r2) := by
              rw [hY2, List.dropWhile_cons]
              simp only [hsp, ite_true]
              rw [List.dropWhile_cons]
              simp [he]
            have ih2 : trimRight (collapseWs (e :: r2)) =
                joinSpace ((e :: t) :: ts) := by
              rw [← htok, ← ih, trimWs]
              rw [show collapseWs (d :: r) = ' ' :: collapseWs (r.dropWhile isWs) from
                collapseWs_ws_head r d hd]
              rw [hdr, hC]
            have hne : trimRight (collapseWs (e :: r2)) ≠ [] := by
              rw [ih2, joinSpace_cons_head]
              exact List.cons_ne_nil e _
            have hs2 : trimRight (' ' :: collapseWs (e :: r2)) =
                ' ' :: trimRight (collapseWs (e :: r2)) :=
              trimRight_cons ' ' _ hne
            have hne2 : trimRight (' ' :: collapseWs (e :: r2)) ≠ [] := by
              rw [hs2]
              exact List.cons_ne_nil _ _
            rw [trimRight_cons c _ hne2, hs2, ih2, htok]
            rfl
        · obtain ⟨t, ts, hts⟩ := wsTokens_head r d (by simpa using hd)
          have e2 : wsTokens (c :: d :: r) = (c :: d :: t) :: ts := by
            have one : wsTokens (c :: d :: r) =
                match wsTokens (d :: r) with
                | [] => [[c]]
                | u :: us => (c :: u) :: us := by
              simp [wsTokens, hc, hd]
            rw [one, hts]
          obtain ⟨Y, hY⟩ := collapseWs_cons_head d r (by simpa using hd)
          have e3 : (collapseWs (d :: r)).dropWhile isWs = collapseWs (d :: r) := by
            rw [hY, List.dropWhile_cons]
            simp [hd]
          have ih2 : trimRight (collapseWs (d :: r)) = joinSpace ((d :: t) :: ts) := by
            rw [← hts, ← ih, trimWs, e3]
          have hne : trimRight (collapseWs (d :: r)) ≠ [] := by
            rw [ih2, joinSpace_cons_head]
            exact List.cons_ne_nil d _
          rw [e2, trimRight_cons c _ hne, ih2, joinSpace_cons_head c (d :: t) ts]

/-- C2 (amended): the normaliser equals the pipeline that replaces every
tag-delimited substring with a single space, then collapses every whitespace
run to one space and trims the ends, the latter two steps stated here in
their declarative token-join form; no entity decoding happens anywhere. -/
theorem C2_replace_collapse_trim (s : String) :
    normalizeCellStr s = String.mk (joinSpace (wsTokens (stripTags s.data))) :=
  congrArg String.mk (trim_collapse_eq_join (stripTags s.data))

/-- C1 (amended): for every input markup fragment the normaliser output has
no run of two or more consecutive whitespace characters, and no < character
with a > character anywhere after it; an unmatched < (one with no later >),
or a stray >, can survive into the output. -/
theorem C1_normalizer_output_shape (s : String) :
    noDoubleWs (normalizeCellStr s).data = true ∧ ltGtFree (normalizeCellStr s).data = true := by
  have hdata : (normalizeCellStr s).data =
      trimRight ((collapseWs (stripTags s.data)).dropWhile isWs) := rfl
  rw [hdata]
  constructor
  · exact noDoubleWs_trimRight _ (noDoubleWs_dropWhile isWs _ (noDoubleWs_collapse _))
  · exact ltGtFree_trimRight _ (ltGtFree_dropWhile isWs _ (ltGtFree_collapse _
      (ltGtFree_strip s.data.length s.data (Nat.le_refl _))))

/-- C1 counterexample: the claim says the normaliser output never contains the
character <, but on the fragment a<b, whose < has no later >, the tag regex
matches nothing and the < survives to the output. -/
theorem C1_lt_survives :
    normalizeCellStr "a<b" = "a<b" ∧ '<' ∈ (normalizeCellStr "a<b").data := by decide

/-- C2 counterexample: the claim says tag-delimited substrings are deleted;
the source replaces them with a space, which the collapse step then keeps, so
on a<b>c the code yields a c while the claimed deletion pipeline yields ac. -/
theorem C2_not_deletion :
    normalizeCellStr "a<b>c" ≠ specDeleteNormalize "a<b>c" ∧
    normalizeCellStr "a<b>c" = "a c" ∧ specDeleteNormalize "a<b>c" = "ac" := by decide

end Fundamentus
